import Mathlib

/-!
# Verification of the quetzal segment validator (`back/eaf/src/parser.rs`)

This development embeds the validating parser for transcribed speech
segments.  Strings are modelled as lists of Unicode scalar values
(`Str := List Char`) and all offsets are counted in scalars; for the
ASCII inputs used in the concrete evaluations below this coincides with
the byte offsets used by the Rust code.

The crate-level data declarations (`Token`, `Node`, `Mistake`,
`Tokenized`, `Parsed`, `DelimKind`, `TokenKind`) are consumed by
`parser.rs` but their declaring module is not among the provided source
files; they are modelled from the specification's data-model section.
All behaviour (the functions on these types) is translated from
`parser.rs` itself.
-/

namespace Quetzal

/-- Text is modelled as a list of Unicode scalar values. -/
abbrev Str := List Char

/-- Modelled from the spec: `DelimKind` — enumerated {Round, Square, Angle}. -/
inductive DelimKind where
  | Round
  | Square
  | Angle
deriving DecidableEq, Repr

/-- Modelled from the spec: token kinds are `NonDelim`, `Open(kind)`,
`Close(kind)`. -/
inductive TokenKind where
  | NonDelim
  | Open (kind : DelimKind)
  | Close (kind : DelimKind)
deriving DecidableEq, Repr

/-- Modelled from the spec: a `Token` is a kind plus `start`/`end`
offsets into the normalized source.  The Rust field `end` is a reserved
word in Lean and is rendered `stop`. -/
structure Token where
  kind : TokenKind
  start : Nat
  stop : Nat
deriving DecidableEq, Repr

/-- Modelled from the spec: the validated structural output.  `Token`
is an accepted non-delimiter span, `Open`/`Close` an accepted bracket,
`AttrList` a sorted deduplicated list of attribute codes. -/
inductive Node where
  | Token (t : Token)
  | Open (kind : DelimKind)
  | Close (kind : DelimKind)
  | AttrList (codes : List Str)
deriving DecidableEq, Repr

/-- Modelled from the spec: the mistake taxonomy.  `at` is a reserved
word in Lean and is rendered `atTok` (a token index). -/
inductive Mistake where
  | BadToken (atTok : Nat)
  | BadSubstr (start stop atTok : Nat)
  | NestedDelim (kind : DelimKind) (outermostStart atTok : Nat)
  | ClosingUnopenedDelim (kind : DelimKind) (atTok : Nat)
  | UnclosedDelim (kind : DelimKind) (atTok : Nat)
  | MissingAttrs (atTok : Nat)
  | BadAttr (attr : Str) (atTok : Nat)
deriving DecidableEq, Repr

/-- Modelled from the spec: the tokenizer's output — normalized source
text plus the ordered token sequence. -/
structure Tokenized where
  source : Str
  tokens : List Token
deriving DecidableEq, Repr

/-- Modelled from the spec: the validator's result value. -/
structure Parsed where
  source : Str
  tokens : List Token
  nodes : List Node
  mistakes : List Mistake
deriving DecidableEq, Repr

/-! ## String helpers (regex-fragment semantics)

The Rust code builds its matchers with the `regex` crate.  The only
regex features exercised by the parser's matcher construction are
literal characters and the alternation bar `|` (entries are joined with
`"|"`); the compiled whole-string matchers additionally anchor with
`\A(?:...)\z`.  We model this fragment directly: an alternation is the
list of its `|`-separated literal branches.  Entries containing other
regex metacharacters are outside the modelled fragment.
-/

/-- Split a list at every occurrence of the separator character
(`str::split` in Rust; also the branches of a regex alternation).
Always returns at least one piece: the empty input yields `[[]]`. -/
def splitOnChar (sep : Char) : Str → List Str
  | [] => [[]]
  | c :: rest =>
    let r := splitOnChar sep rest
    if c = sep then [] :: r
    else
      match r with
      | [] => [[c]]
      | h :: t => (c :: h) :: t

/-- Join a list of strings with the alternation bar, as
`slice.join("|")` does in `ParserConfig::from_args`. -/
def joinBar : List Str → Str
  | [] => []
  | [s] => s
  | s :: rest => s ++ '|' :: joinBar rest

/-! ## ParserConfig (`parser.rs` lines 12–84) -/

/-- `ParserConfig`: four independent matchers, each an optional
alternation of literal branches (see the regex-fragment note above). -/
structure ParserConfig where
  whitelist : Option (List Str)
  blacklist : Option (List Str)
  atoms : Option (List Str)
  after_angle : Option (List Str)
deriving Repr

/-- `ParserConfig::slice_to_regex`: join the entries with `|`; an empty
join yields no matcher, otherwise the anchored whole-string alternation
`\A(?:join)\z`, modelled as its list of branches. -/
def slice_to_regex (slice : List Str) : Option (List Str) :=
  let joined := joinBar slice
  if joined = [] then none else some (splitOnChar '|' joined)

/-- Insertion of one element into a list sorted by descending length
(helper for `sort_unstable_by_key(|x| Reverse(x.len()))`). -/
def insertByLenDesc (x : Str) : List Str → List Str
  | [] => [x]
  | y :: ys => if y.length < x.length then x :: y :: ys else y :: insertByLenDesc x ys

/-- Sort atoms by descending length, as `from_args` does with
`sort_unstable_by_key(|x| Reverse(x.len()))`.  The Rust sort is
unstable, so the order among equal-length atoms is unspecified there;
ties only ever produce matches with identical spans, so the parser's
output does not depend on the tie order. -/
def sortByLenDesc (l : List Str) : List Str :=
  l.foldr insertByLenDesc []

/-- `ParserConfig::from_args`: sort the atoms longest-first and join
them into an unanchored alternation (absent when the join is empty);
compile the three whole-string matchers with `slice_to_regex`. -/
def ParserConfig.from_args (whitelist blacklist atoms after_angle : List Str) : ParserConfig :=
  let sortedAtoms := sortByLenDesc atoms
  let joined := joinBar sortedAtoms
  { whitelist := slice_to_regex whitelist
    blacklist := slice_to_regex blacklist
    atoms := if joined = [] then none else some (splitOnChar '|' joined)
    after_angle := slice_to_regex after_angle }

/-- `ParserConfig::is_match`: an absent matcher matches nothing
(`unwrap_or_default`); a present whole-string alternation matches
exactly the strings equal to one of its branches. -/
def ParserConfig.is_match (optRe : Option (List Str)) (s : Str) : Bool :=
  match optRe with
  | none => false
  | some branches => branches.contains s

/-- `ParserConfig::in_whitelist`. -/
def ParserConfig.in_whitelist (cfg : ParserConfig) (s : Str) : Bool :=
  ParserConfig.is_match cfg.whitelist s

/-- `ParserConfig::in_blacklist`. -/
def ParserConfig.in_blacklist (cfg : ParserConfig) (s : Str) : Bool :=
  ParserConfig.is_match cfg.blacklist s

/-- `ParserConfig::in_after_angle`. -/
def ParserConfig.in_after_angle (cfg : ParserConfig) (s : Str) : Bool :=
  ParserConfig.is_match cfg.after_angle s

/-! ## Atom iteration (`maybe_iter_atoms` / `Regex::find_iter`)

`find_iter` over an alternation of literal branches: at each search
position, the first branch (in pattern order) matching there wins
(leftmost-first semantics of the `regex` crate over the
length-descending sorted atoms); the scan restarts after the match, or
one scalar further for an empty match.  Matches are `(start, end)`
offset pairs. -/

/-- The first branch of the alternation that matches (as a literal
prefix) at the head of `rem`, returning its length. -/
def firstMatchLen (branches : List Str) (rem : Str) : Option Nat :=
  match branches with
  | [] => none
  | b :: rest => if b.isPrefixOf rem then some b.length else firstMatchLen rest rem

/-- `Regex::find_iter` for an alternation of literal branches, scanning
`rem` whose head sits at absolute offset `p`.  The recursion is driven
by an explicit fuel so that it is structural (and so evaluates by
reduction); every recursive call shortens `rem` by at least one scalar
while spending one fuel unit, so the `rem.length + 1` units supplied by
`findIter` are never exhausted. -/
def findIterFromAux (branches : List Str) : Nat → Str → Nat → List (Nat × Nat)
  | 0, _, _ => []
  | fuel + 1, rem, p =>
    match rem with
    | [] =>
      match firstMatchLen branches [] with
      | some _ => [(p, p)]
      | none => []
    | _ :: tl =>
      match firstMatchLen branches rem with
      | none => findIterFromAux branches fuel tl (p + 1)
      | some 0 => (p, p) :: findIterFromAux branches fuel tl (p + 1)
      | some (k + 1) =>
        (p, p + (k + 1)) :: findIterFromAux branches fuel (rem.drop (k + 1)) (p + (k + 1))

/-- All atom matches in `s` (`self.atoms.find_iter(s)`). -/
def findIter (branches : List Str) (s : Str) : List (Nat × Nat) :=
  findIterFromAux branches (s.length + 1) s 0

/-! ## The parser state machine (`parser.rs` lines 86–332) -/

/-- The mutable state of `Parser` (the config is passed separately,
mirroring the `&ParserConfig` reference). -/
structure Parser where
  source : Str
  tokens : List Token
  current : Nat
  nodes : List Node
  mistakes : List Mistake
  round_start : Option Nat
  square_start : Option Nat
  angle_start : Option Nat
deriving Repr

/-- The open-position tracker for a given delimiter kind. -/
def Parser.delimStart (st : Parser) : DelimKind → Option Nat
  | .Round => st.round_start
  | .Square => st.square_start
  | .Angle => st.angle_start

/-- The default token used to totalize list indexing in the model (the
Rust indexing panics out of bounds instead; all call sites are guarded
by `current < tokens.len()`). -/
def dummyToken : Token := ⟨TokenKind.NonDelim, 0, 0⟩

/-- `Parser::get_token`: the token at `current` together with the slice
`source[token.start..token.end]`. -/
def get_token (current : Nat) (tokens : List Token) (source : Str) : Token × Str :=
  let token := tokens.getD current dummyToken
  (token, (source.drop token.start).take (token.stop - token.start))

/-- `NUMERIC_RE.is_match`, the unanchored search for
`-?\d*?[,\.]?\d+`.  An unanchored search for this pattern succeeds
exactly when the string contains a decimal digit: a digit on its own
matches the pattern (with `-?`, `\d*?` and `[,\.]?` all matching
empty), and conversely every match must end in the nonempty `\d+`.
(`\d` is modelled as the ASCII digits; the parser's inputs of interest
are ASCII.) -/
def numeric_is_match (s : Str) : Bool :=
  s.any Char.isDigit

/-- The loop over `atoms` in `parse_word` (lines 186–198): walk the
match list threading `prev_end`, recording one `BadSubstr` per gap
before a match and clearing `word_ok` on every such gap.  Returns the
recorded mistakes, the resulting `word_ok` flag, and the final
`prev_end`. -/
def atomScan (atTok : Nat) : List (Nat × Nat) → Nat → List Mistake × Bool × Nat
  | [], prevEnd => ([], true, prevEnd)
  | (s, e) :: rest, prevEnd =>
    let (ms, ok, fin) := atomScan atTok rest e
    if s ≠ prevEnd then (Mistake.BadSubstr prevEnd s atTok :: ms, false, fin)
    else (ms, ok, fin)

/-- The word-classification chain of `Parser::parse_word` (lines
169–206): numeral check first, then whitelist, blacklist, atoms.
Returns the final `word_ok` flag together with the mistakes recorded,
in order.  Note two details of the source faithfully reproduced in the
atoms branch: the trailing-gap check (lines 199–205) records
`BadSubstr{start: 0, end: token_len}` — the whole token span, not the
trailing gap's own offsets — and it does not clear `word_ok`. -/
def wordCheck (cfg : ParserConfig) (roundOpen : Bool) (atTok : Nat) (token_str : Str) :
    Bool × List Mistake :=
  if numeric_is_match token_str then
    if !roundOpen then (false, [Mistake.BadToken atTok]) else (true, [])
  else if cfg.in_whitelist token_str then (true, [])
  else if cfg.in_blacklist token_str then (false, [Mistake.BadToken atTok])
  else
    match cfg.atoms with
    | none => (true, [])
    | some branches =>
      let token_len := token_str.length
      let scanned := atomScan atTok (findIter branches token_str) 0
      let tail :=
        if scanned.2.2 ≠ token_len then [Mistake.BadSubstr 0 token_len atTok] else []
      (scanned.2.1, scanned.1 ++ tail)

/-- `Parser::parse_word` (lines 165–212): classify the current token,
record the mistakes, emit the token as a node exactly when `word_ok`
survived, and advance. -/
def parse_word (cfg : ParserConfig) (st : Parser) : Parser :=
  let tokenAndStr := get_token st.current st.tokens st.source
  let checked := wordCheck cfg st.round_start.isSome st.current tokenAndStr.2
  { st with
    mistakes := st.mistakes ++ checked.2
    nodes := if checked.1 then st.nodes ++ [Node.Token tokenAndStr.1] else st.nodes
    current := st.current + 1 }

/-- `Parser::parse_open_round` (lines 214–226). -/
def parse_open_round (st : Parser) : Parser :=
  match st.round_start with
  | some i =>
    { st with
      mistakes := st.mistakes ++ [Mistake.NestedDelim DelimKind.Round i st.current]
      current := st.current + 1 }
  | none =>
    { st with
      round_start := some st.current
      nodes := st.nodes ++ [Node.Open DelimKind.Round]
      current := st.current + 1 }

/-- `Parser::parse_close_round` (lines 228–238): `take()` clears the
tracker in both branches. -/
def parse_close_round (st : Parser) : Parser :=
  match st.round_start with
  | none =>
    { st with
      mistakes := st.mistakes ++ [Mistake.ClosingUnopenedDelim DelimKind.Round st.current]
      current := st.current + 1 }
  | some _ =>
    { st with
      round_start := none
      nodes := st.nodes ++ [Node.Close DelimKind.Round]
      current := st.current + 1 }

/-- `Parser::parse_open_square` (lines 243–255). -/
def parse_open_square (st : Parser) : Parser :=
  match st.square_start with
  | some i =>
    { st with
      mistakes := st.mistakes ++ [Mistake.NestedDelim DelimKind.Square i st.current]
      current := st.current + 1 }
  | none =>
    { st with
      square_start := some st.current
      nodes := st.nodes ++ [Node.Open DelimKind.Square]
      current := st.current + 1 }

/-- `Parser::parse_close_square` (lines 257–267). -/
def parse_close_square (st : Parser) : Parser :=
  match st.square_start with
  | none =>
    { st with
      mistakes := st.mistakes ++ [Mistake.ClosingUnopenedDelim DelimKind.Square st.current]
      current := st.current + 1 }
  | some _ =>
    { st with
      square_start := none
      nodes := st.nodes ++ [Node.Close DelimKind.Square]
      current := st.current + 1 }

/-- The loop over `token_str.split('_')` in `parse_open_angle` (lines
298–313): accumulate accepted non-empty non-duplicate codes, clear
`codes_ok` and record a `BadAttr` for every rejected piece.  Takes the
codes gathered so far; returns the final codes, the `codes_ok` flag
restricted to the remaining pieces, and the recorded mistakes in
order. -/
def attrLoop (cfg : ParserConfig) (atTok : Nat) :
    List Str → List Str → List Str × Bool × List Mistake
  | [], codes => (codes, true, [])
  | code :: rest, codes =>
    if cfg.in_after_angle code then
      let codes' := if code = [] ∨ codes.contains code then codes else codes ++ [code]
      attrLoop cfg atTok rest codes'
    else
      let (cs, _, ms) := attrLoop cfg atTok rest codes
      (cs, false, Mistake.BadAttr code atTok :: ms)

/-- The attribute-list handling of `parse_open_angle` (lines 282–318),
inspecting the token at position `next` (the position right after the
angle-open).  Returns the mistakes and nodes to append and the new
value of `current`. -/
def attrCheck (cfg : ParserConfig) (tokens : List Token) (source : Str) (next : Nat) :
    List Mistake × List Node × Nat :=
  if next = tokens.length then ([Mistake.MissingAttrs next], [], next)
  else
    let tokenAndStr := get_token next tokens source
    if tokenAndStr.1.kind ≠ TokenKind.NonDelim then ([Mistake.MissingAttrs next], [], next)
    else
      let looped := attrLoop cfg next (splitOnChar '_' tokenAndStr.2) []
      (looped.2.2,
       if looped.2.1 then [Node.AttrList (looped.1.insertionSort (· ≤ ·))] else [],
       next + 1)

/-- `Parser::parse_open_angle` (lines 269–319).  Note that the
attribute-list handling (from line 282 on) runs unconditionally after
the open-delimiter handling — also when the open was recorded as a
`NestedDelim` mistake. -/
def parse_open_angle (cfg : ParserConfig) (st : Parser) : Parser :=
  let opened :=
    match st.angle_start with
    | some i =>
      { st with mistakes := st.mistakes ++ [Mistake.NestedDelim DelimKind.Angle i st.current] }
    | none =>
      { st with angle_start := some st.current, nodes := st.nodes ++ [Node.Open DelimKind.Angle] }
  let attrs := attrCheck cfg opened.tokens opened.source (st.current + 1)
  { opened with
    mistakes := opened.mistakes ++ attrs.1
    nodes := opened.nodes ++ attrs.2.1
    current := attrs.2.2 }

/-- `Parser::parse_close_angle` (lines 321–331). -/
def parse_close_angle (st : Parser) : Parser :=
  match st.angle_start with
  | none =>
    { st with
      mistakes := st.mistakes ++ [Mistake.ClosingUnopenedDelim DelimKind.Angle st.current]
      current := st.current + 1 }
  | some _ =>
    { st with
      angle_start := none
      nodes := st.nodes ++ [Node.Close DelimKind.Angle]
      current := st.current + 1 }

/-- `Parser::step` (lines 145–157): dispatch on the current token's
kind. -/
def stepFn (cfg : ParserConfig) (st : Parser) : Parser :=
  match (st.tokens.getD st.current dummyToken).kind with
  | .NonDelim => parse_word cfg st
  | .Open .Round => parse_open_round st
  | .Close .Round => parse_close_round st
  | .Open .Square => parse_open_square st
  | .Close .Square => parse_close_square st
  | .Open .Angle => parse_open_angle cfg st
  | .Close .Angle => parse_close_angle st

/-- The `while parser.current < num_tokens` loop of `Parser::parse`,
with an explicit iteration bound. Every step advances `current` by at
least one, so `tokens.length` iterations always suffice (proved
below). -/
def runLoop (cfg : ParserConfig) : Nat → Parser → Parser
  | 0, st => st
  | fuel + 1, st =>
    if st.current < st.tokens.length then runLoop cfg fuel (stepFn cfg st) else st

/-- The initial parser state built by `Parser::parse` (lines
103–115). -/
def initState (segment : Tokenized) : Parser :=
  { source := segment.source
    tokens := segment.tokens
    current := 0
    nodes := []
    mistakes := []
    round_start := none
    square_start := none
    angle_start := none }

/-- The end-of-input reporting of `Parser::parse` (lines 121–135): one
`UnclosedDelim` per still-open kind, in the fixed order Round, Square,
Angle. -/
def unclosedMistakes (st : Parser) : List Mistake :=
  (match st.round_start with
   | some i => [Mistake.UnclosedDelim DelimKind.Round i]
   | none => []) ++
  (match st.square_start with
   | some i => [Mistake.UnclosedDelim DelimKind.Square i]
   | none => []) ++
  (match st.angle_start with
   | some i => [Mistake.UnclosedDelim DelimKind.Angle i]
   | none => [])

/-- `Parser::parse` (lines 102–143). -/
def Parser.parse (cfg : ParserConfig) (segment : Tokenized) : Parsed :=
  let st0 := initState segment
  let st := runLoop cfg st0.tokens.length st0
  { source := st.source
    tokens := st.tokens
    nodes := st.nodes
    mistakes := st.mistakes ++ unclosedMistakes st }

/-! ## Tokenizer

The tokenizer module consumed by `parser.rs` (`tokenizer::tokenize`) is
not among the provided source files; it is modelled from the
specification's tokenizer contract. -/

/-- Modelled from the spec: the six bracket characters, each its own
single-character token tagged `Open`/`Close(kind)`. -/
def bracketKind (c : Char) : Option TokenKind :=
  if c = '(' then some (TokenKind.Open DelimKind.Round)
  else if c = ')' then some (TokenKind.Close DelimKind.Round)
  else if c = '[' then some (TokenKind.Open DelimKind.Square)
  else if c = ']' then some (TokenKind.Close DelimKind.Square)
  else if c = '<' then some (TokenKind.Open DelimKind.Angle)
  else if c = '>' then some (TokenKind.Close DelimKind.Angle)
  else none

/-- A character that extends a `NonDelim` run: neither a space nor a
bracket. -/
def isWordChar (c : Char) : Bool :=
  c ≠ ' ' ∧ (bracketKind c).isNone

/-- Modelled from the spec: collapse every run of whitespace to a
single ASCII space. -/
def squeezeWs : Str → Str
  | [] => []
  | [c] => [if c.isWhitespace then ' ' else c]
  | c :: d :: rest =>
    if c.isWhitespace ∧ d.isWhitespace then squeezeWs (d :: rest)
    else (if c.isWhitespace then ' ' else c) :: squeezeWs (d :: rest)

/-- Modelled from the spec: whitespace normalization — collapse runs,
then trim both ends. -/
def normalizeWs (s : Str) : Str :=
  ((squeezeWs s).dropWhile (· = ' ')).reverse.dropWhile (· = ' ') |>.reverse

/-- Close a pending `NonDelim` run, if any: `cur` is the start offset
of the run still open, `p` the current offset (its exclusive end). -/
def flushRun (cur : Option Nat) (p : Nat) : List Token :=
  match cur with
  | some s => [⟨TokenKind.NonDelim, s, p⟩]
  | none => []

/-- Modelled from the spec: scan the normalized text, emitting one
token per bracket character and one `NonDelim` token per maximal run of
other non-space characters; separating spaces are discarded.  `p` is
the offset of the head of `rem`; `cur` the start of a `NonDelim` run
still open, if any. -/
def tokenizeAux : Str → Nat → Option Nat → List Token
  | [], p, cur => flushRun cur p
  | c :: rest, p, cur =>
    if c = ' ' then flushRun cur p ++ tokenizeAux rest (p + 1) none
    else
      match bracketKind c with
      | some kind => flushRun cur p ++ ⟨kind, p, p + 1⟩ :: tokenizeAux rest (p + 1) none
      | none =>
        match cur with
        | some _ => tokenizeAux rest (p + 1) cur
        | none => tokenizeAux rest (p + 1) (some p)

/-- Modelled from the spec: `tokenize(source)` — normalize whitespace,
then segment. -/
def tokenize (text : Str) : Tokenized :=
  let t := normalizeWs text
  { source := t, tokens := tokenizeAux t 0 none }

/-! ## Statement-level vocabulary

Definitions used to state the verified properties (not translations of
code). -/

/-- The text slice of the token at index `i`. -/
def tokenStrAt (st : Parser) (i : Nat) : Str :=
  (get_token i st.tokens st.source).2

/-- The gaps before and between matches: pair each match's start
offset with the previous match's end offset (`0` before the first
match) and keep the pairs whose offsets differ. -/
def innerGaps (ms : List (Nat × Nat)) : List (Nat × Nat) :=
  ((0 :: ms.map Prod.snd).zip (ms.map Prod.fst)).filter fun g => g.1 ≠ g.2

/-- The end offset of the last match (`0` when there is none). -/
def lastMatchEnd (ms : List (Nat × Nat)) : Nat :=
  (ms.map Prod.snd).getLastD 0

/-- The match list is an ordered tiling attempt: every match starts at
or after the search position, ends at or after its start, and each
later match starts strictly later and no earlier than the previous
match's end. -/
def MatchChain : Nat → List (Nat × Nat) → Prop
  | _, [] => True
  | p, (s, e) :: rest => p ≤ s ∧ s ≤ e ∧ MatchChain (max e (s + 1)) rest

/-- Whether a mistake is a word-classification mistake (`BadToken` or
`BadSubstr`) attached to token index `k`. -/
def isWordMistakeAt (m : Mistake) (k : Nat) : Bool :=
  match m with
  | .BadToken a => a = k
  | .BadSubstr _ _ a => a = k
  | _ => false

/-- The spec's reading of the numeral pattern `-?\d*?[,\.]?\d+` as a
whole-string match: after an optional leading `-`, a nonempty string of
digits with at most one `,`/`.` separator, ending in a digit.  (This is
the refinement comparison point; the code's `numeric_is_match` performs
an unanchored search instead.) -/
def numeralSpecWholeMatch (s : Str) : Bool :=
  let t := match s with | '-' :: r => r | _ => s
  !t.isEmpty &&
    t.all (fun c => c.isDigit || c = ',' || c = '.') &&
    (t.filter (fun c => c = ',' || c = '.')).length ≤ 1 &&
    (t.getLastD '-').isDigit

/-! ## Concrete configurations, segments and states used in the
witness and counterexample evaluations -/

/-- The empty configuration (all four matcher lists empty). -/
def emptyCfg : ParserConfig := ParserConfig.from_args [] [] [] []

/-- A one-word parser state used to witness the progress property. -/
def progressSt : Parser :=
  { source := ['a']
    tokens := [⟨TokenKind.NonDelim, 0, 1⟩]
    current := 0
    nodes := []
    mistakes := []
    round_start := none
    square_start := none
    angle_start := none }

/-- A state about to read a second `(` while one is already open at
index 0. -/
def nestedSt : Parser :=
  { source := ['(', '(']
    tokens := [⟨TokenKind.Open DelimKind.Round, 0, 1⟩, ⟨TokenKind.Open DelimKind.Round, 1, 2⟩]
    current := 1
    nodes := [Node.Open DelimKind.Round]
    mistakes := []
    round_start := some 0
    square_start := none
    angle_start := none }

/-- A segment consisting of a single unclosed `(`. -/
def unclosedSeg : Tokenized :=
  { source := ['('], tokens := [⟨TokenKind.Open DelimKind.Round, 0, 1⟩] }

/-- A config whose only non-empty matcher list is the single atom
`a`. -/
def atomACfg : ParserConfig := ParserConfig.from_args [] [] [['a']] []

/-- The one-token segment `a1`. -/
def a1Seg : Tokenized :=
  { source := ['a', '1'], tokens := [⟨TokenKind.NonDelim, 0, 2⟩] }

/-- A state reading the numeral `12` with a Round delimiter open. -/
def roundNumSt : Parser :=
  { source := ['1', '2']
    tokens := [⟨TokenKind.NonDelim, 0, 2⟩]
    current := 0
    nodes := []
    mistakes := []
    round_start := some 0
    square_start := none
    angle_start := none }

/-- A state about to read an accepted `<` followed by the codes token
`SM`. -/
def angleSt : Parser :=
  { source := ['<', 'S', 'M']
    tokens := [⟨TokenKind.Open DelimKind.Angle, 0, 1⟩, ⟨TokenKind.NonDelim, 1, 3⟩]
    current := 0
    nodes := []
    mistakes := []
    round_start := none
    square_start := none
    angle_start := none }

/-- The config whose after-angle list is the single code `SM`. -/
def smCfg : ParserConfig := ParserConfig.from_args [] [] [] [['S', 'M']]

/-- A state about to read a nested `<` (one already open at index 0)
followed by the codes token `x`. -/
def nestedAngleSt : Parser :=
  { source := ['<', '<', 'x']
    tokens := [⟨TokenKind.Open DelimKind.Angle, 0, 1⟩,
               ⟨TokenKind.Open DelimKind.Angle, 1, 2⟩,
               ⟨TokenKind.NonDelim, 2, 3⟩]
    current := 1
    nodes := [Node.Open DelimKind.Angle]
    mistakes := [Mistake.MissingAttrs 1]
    round_start := none
    square_start := none
    angle_start := some 0 }

/-- The one-token segment `ab`. -/
def abSeg : Tokenized :=
  { source := ['a', 'b'], tokens := [⟨TokenKind.NonDelim, 0, 2⟩] }

/-- The one-token segment `x`. -/
def xSeg : Tokenized :=
  { source := ['x'], tokens := [⟨TokenKind.NonDelim, 0, 1⟩] }

/-- The state at the start of segment `ab` under the atoms config
`["a"]`. -/
def abSt : Parser := initState abSeg

/-- The atoms-only config `["a", "b"]`. -/
def abCfg : ParserConfig := ParserConfig.from_args [] [] [['a'], ['b']] []

/-- The one-token segment `%b`. -/
def pbSeg : Tokenized :=
  { source := ['%', 'b'], tokens := [⟨TokenKind.NonDelim, 0, 2⟩] }

/-- The state at the start of segment `%b` under the atoms config
`["a","b"]`. -/
def pbSt : Parser := initState pbSeg

/-- The config and segment for the C10 witness: `<x` with `x` not an
allowed code. -/
def angleXSeg : Tokenized :=
  { source := ['<', 'x']
    tokens := [⟨TokenKind.Open DelimKind.Angle, 0, 1⟩, ⟨TokenKind.NonDelim, 1, 2⟩] }

/-! ## General step lemmas -/

theorem parse_word_fields (cfg : ParserConfig) (st : Parser) :
    (parse_word cfg st).source = st.source ∧
    (parse_word cfg st).tokens = st.tokens ∧
    (parse_word cfg st).current = st.current + 1 ∧
    (parse_word cfg st).round_start = st.round_start ∧
    (parse_word cfg st).square_start = st.square_start ∧
    (parse_word cfg st).angle_start = st.angle_start ∧
    st.mistakes <+: (parse_word cfg st).mistakes ∧
    st.nodes <+: (parse_word cfg st).nodes := by
  unfold parse_word
  dsimp only
  refine ⟨rfl, rfl, rfl, rfl, rfl, rfl, List.prefix_append _ _, ?_⟩
  split
  · exact List.prefix_append _ _
  · exact List.prefix_rfl

theorem parse_open_round_fields (st : Parser) :
    (parse_open_round st).source = st.source ∧
    (parse_open_round st).tokens = st.tokens ∧
    (parse_open_round st).current = st.current + 1 ∧
    st.mistakes <+: (parse_open_round st).mistakes ∧
    st.nodes <+: (parse_open_round st).nodes := by
  unfold parse_open_round
  cases st.round_start <;> dsimp only <;>
    exact ⟨rfl, rfl, rfl,
      by first | exact List.prefix_rfl | exact List.prefix_append _ _,
      by first | exact List.prefix_rfl | exact List.prefix_append _ _⟩

theorem parse_close_round_fields (st : Parser) :
    (parse_close_round st).source = st.source ∧
    (parse_close_round st).tokens = st.tokens ∧
    (parse_close_round st).current = st.current + 1 ∧
    st.mistakes <+: (parse_close_round st).mistakes ∧
    st.nodes <+: (parse_close_round st).nodes := by
  unfold parse_close_round
  cases st.round_start <;> dsimp only <;>
    exact ⟨rfl, rfl, rfl,
      by first | exact List.prefix_rfl | exact List.prefix_append _ _,
      by first | exact List.prefix_rfl | exact List.prefix_append _ _⟩

theorem parse_open_square_fields (st : Parser) :
    (parse_open_square st).source = st.source ∧
    (parse_open_square st).tokens = st.tokens ∧
    (parse_open_square st).current = st.current + 1 ∧
    st.mistakes <+: (parse_open_square st).mistakes ∧
    st.nodes <+: (parse_open_square st).nodes := by
  unfold parse_open_square
  cases st.square_start <;> dsimp only <;>
    exact ⟨rfl, rfl, rfl,
      by first | exact List.prefix_rfl | exact List.prefix_append _ _,
      by first | exact List.prefix_rfl | exact List.prefix_append _ _⟩

theorem parse_close_square_fields (st : Parser) :
    (parse_close_square st).source = st.source ∧
    (parse_close_square st).tokens = st.tokens ∧
    (parse_close_square st).current = st.current + 1 ∧
    st.mistakes <+: (parse_close_square st).mistakes ∧
    st.nodes <+: (parse_close_square st).nodes := by
  unfold parse_close_square
  cases st.square_start <;> dsimp only <;>
    exact ⟨rfl, rfl, rfl,
      by first | exact List.prefix_rfl | exact List.prefix_append _ _,
      by first | exact List.prefix_rfl | exact List.prefix_append _ _⟩

theorem parse_close_angle_fields (st : Parser) :
    (parse_close_angle st).source = st.source ∧
    (parse_close_angle st).tokens = st.tokens ∧
    (parse_close_angle st).current = st.current + 1 ∧
    st.mistakes <+: (parse_close_angle st).mistakes ∧
    st.nodes <+: (parse_close_angle st).nodes := by
  unfold parse_close_angle
  cases st.angle_start <;> dsimp only <;>
    exact ⟨rfl, rfl, rfl,
      by first | exact List.prefix_rfl | exact List.prefix_append _ _,
      by first | exact List.prefix_rfl | exact List.prefix_append _ _⟩

theorem parse_open_angle_fields (cfg : ParserConfig) (st : Parser) :
    (parse_open_angle cfg st).source = st.source ∧
    (parse_open_angle cfg st).tokens = st.tokens ∧
    (st.current + 1 ≤ (parse_open_angle cfg st).current ∧
      (parse_open_angle cfg st).current ≤ st.current + 2) ∧
    st.mistakes <+: (parse_open_angle cfg st).mistakes ∧
    st.nodes <+: (parse_open_angle cfg st).nodes := by
  unfold parse_open_angle attrCheck
  cases st.angle_start <;> dsimp only <;>
    refine ⟨rfl, rfl, ?_, ?_, ?_⟩ <;>
    · split
      · simp
      · split <;> simp

theorem stepFn_fields (cfg : ParserConfig) (st : Parser) :
    (stepFn cfg st).source = st.source ∧
    (stepFn cfg st).tokens = st.tokens ∧
    (st.current + 1 ≤ (stepFn cfg st).current ∧ (stepFn cfg st).current ≤ st.current + 2) ∧
    st.mistakes <+: (stepFn cfg st).mistakes ∧
    st.nodes <+: (stepFn cfg st).nodes := by
  unfold stepFn
  rcases hk : (st.tokens.getD st.current dummyToken).kind with _ | k | k
  · dsimp only
    obtain ⟨h1, h2, h3, h4, h5, h6, h7, h8⟩ := parse_word_fields cfg st
    exact ⟨h1, h2, by omega, h7, h8⟩
  · cases k <;> dsimp only
    · obtain ⟨h1, h2, h3, h4, h5⟩ := parse_open_round_fields st
      exact ⟨h1, h2, by omega, h4, h5⟩
    · obtain ⟨h1, h2, h3, h4, h5⟩ := parse_open_square_fields st
      exact ⟨h1, h2, by omega, h4, h5⟩
    · obtain ⟨h1, h2, h3, h4, h5⟩ := parse_open_angle_fields cfg st
      exact ⟨h1, h2, h3, h4, h5⟩
  · cases k <;> dsimp only
    · obtain ⟨h1, h2, h3, h4, h5⟩ := parse_close_round_fields st
      exact ⟨h1, h2, by omega, h4, h5⟩
    · obtain ⟨h1, h2, h3, h4, h5⟩ := parse_close_square_fields st
      exact ⟨h1, h2, by omega, h4, h5⟩
    · obtain ⟨h1, h2, h3, h4, h5⟩ := parse_close_angle_fields st
      exact ⟨h1, h2, by omega, h4, h5⟩

/-! ## Run-loop lemmas -/

theorem runLoop_source_tokens (cfg : ParserConfig) (fuel : Nat) (st : Parser) :
    (runLoop cfg fuel st).source = st.source ∧ (runLoop cfg fuel st).tokens = st.tokens := by
  induction fuel generalizing st with
  | zero => exact ⟨rfl, rfl⟩
  | succ n ih =>
    unfold runLoop
    split
    · obtain ⟨hs, ht⟩ := ih (stepFn cfg st)
      obtain ⟨s1, t1, -, -, -⟩ := stepFn_fields cfg st
      exact ⟨hs.trans s1, ht.trans t1⟩
    · exact ⟨rfl, rfl⟩

theorem runLoop_exhausts (cfg : ParserConfig) (fuel : Nat) (st : Parser)
    (h : st.tokens.length ≤ st.current + fuel) :
    st.tokens.length ≤ (runLoop cfg fuel st).current := by
  induction fuel generalizing st with
  | zero => simpa using h
  | succ n ih =>
    unfold runLoop
    split
    · rename_i hlt
      obtain ⟨-, htok, ⟨hc1, hc2⟩, -, -⟩ := stepFn_fields cfg st
      have := ih (stepFn cfg st) (by rw [htok]; omega)
      rw [htok] at this
      exact this
    · rename_i hge
      omega

/-- Two C9 witnesses of the run loop: the result's `mistakes` and
`nodes` lists extend the initial ones (the state machine only
appends). -/
theorem runLoop_appends (cfg : ParserConfig) (fuel : Nat) (st : Parser) :
    st.mistakes <+: (runLoop cfg fuel st).mistakes ∧
    st.nodes <+: (runLoop cfg fuel st).nodes := by
  induction fuel generalizing st with
  | zero => exact ⟨List.prefix_rfl, List.prefix_rfl⟩
  | succ n ih =>
    unfold runLoop
    split
    · obtain ⟨hm, hn⟩ := ih (stepFn cfg st)
      obtain ⟨-, -, -, hm1, hn1⟩ := stepFn_fields cfg st
      exact ⟨hm1.trans hm, hn1.trans hn⟩
    · exact ⟨List.prefix_rfl, List.prefix_rfl⟩

/-! ## Claim C9 — the frame: source and tokens pass through unchanged -/

/-- C9: for every config and tokenized segment, the `Parsed` value
returned by validation carries the input's source string and token
sequence unchanged, and validation only ever appends to the node and
mistake lists. -/
theorem parse_frame_source_tokens :
    ∀ (cfg : ParserConfig) (seg : Tokenized),
      (Parser.parse cfg seg).source = seg.source ∧
      (Parser.parse cfg seg).tokens = seg.tokens := by
  intro cfg seg
  unfold Parser.parse
  obtain ⟨hs, ht⟩ := runLoop_source_tokens cfg (initState seg).tokens.length (initState seg)
  exact ⟨hs, ht⟩

/-! ## Claim C8 — single pass, guaranteed progress, termination -/

/-- C8: every step of the validator advances the current token index by
at least one (and by at most two), and consequently the main loop,
given one fuel unit per token, always runs the input to exhaustion —
`Parser::parse` needs exactly one left-to-right pass and cannot fail to
terminate.  (The model is a total function; validation has no abort
path.) -/
theorem parse_single_pass_terminates :
    (∀ (cfg : ParserConfig) (st : Parser), st.current < st.tokens.length →
      st.current < (stepFn cfg st).current ∧ (stepFn cfg st).current ≤ st.current + 2) ∧
    (∀ (cfg : ParserConfig) (seg : Tokenized),
      seg.tokens.length ≤ (runLoop cfg seg.tokens.length (initState seg)).current) := by
  constructor
  · intro cfg st _
    obtain ⟨-, -, ⟨h1, h2⟩, -, -⟩ := stepFn_fields cfg st
    omega
  · intro cfg seg
    exact runLoop_exhausts cfg seg.tokens.length (initState seg) (by simp [initState])

theorem parse_single_pass_terminates_witness :
    progressSt.current < progressSt.tokens.length ∧
    (progressSt.current < (stepFn emptyCfg progressSt).current ∧
      (stepFn emptyCfg progressSt).current ≤ progressSt.current + 2) :=
  ⟨by decide, parse_single_pass_terminates.1 emptyCfg progressSt (by decide)⟩

/-! ## Claim C4 — same-kind nesting keeps the outermost open index -/

/-- C4: for every delimiter kind, an `Open(kind)` token arriving while
an open index for that kind is recorded emits
`NestedDelim{kind, outermost_start: recorded index, at: current}` as
the first new mistake and leaves the recorded open index unchanged; and
any kind still open when the loop ends is reported as
`UnclosedDelim{kind, at: recorded index}` — always the outermost
occurrence's index. -/
theorem open_delim_nested_keeps_outermost :
    (∀ (cfg : ParserConfig) (st : Parser) (k : DelimKind) (i : Nat),
      (st.tokens.getD st.current dummyToken).kind = TokenKind.Open k →
      st.delimStart k = some i →
      (stepFn cfg st).delimStart k = some i ∧
      ∃ rest, (stepFn cfg st).mistakes =
        st.mistakes ++ Mistake.NestedDelim k i st.current :: rest) ∧
    (∀ (cfg : ParserConfig) (seg : Tokenized) (k : DelimKind) (i : Nat),
      (runLoop cfg seg.tokens.length (initState seg)).delimStart k = some i →
      Mistake.UnclosedDelim k i ∈ (Parser.parse cfg seg).mistakes) := by
  constructor
  · intro cfg st k i hk hs
    unfold stepFn
    rw [hk]
    cases k <;> dsimp only <;> simp only [Parser.delimStart] at hs
    · unfold parse_open_round
      rw [hs]
      dsimp only
      exact ⟨by simp [Parser.delimStart], [], by simp⟩
    · unfold parse_open_square
      rw [hs]
      dsimp only
      exact ⟨by simp [Parser.delimStart], [], by simp⟩
    · unfold parse_open_angle
      rw [hs]
      dsimp only
      refine ⟨by simp [Parser.delimStart, hs], ?_⟩
      exact ⟨(attrCheck cfg st.tokens st.source (st.current + 1)).1, by simp⟩
  · intro cfg seg k i hs
    have key : ∀ (stF : Parser), stF.delimStart k = some i →
        Mistake.UnclosedDelim k i ∈ unclosedMistakes stF := by
      intro stF h
      unfold unclosedMistakes
      cases k <;> simp only [Parser.delimStart] at h <;> rw [h] <;> simp
    exact List.mem_append.mpr (Or.inr (key _ hs))

theorem open_delim_nested_keeps_outermost_witness :
    ((nestedSt.tokens.getD nestedSt.current dummyToken).kind =
      TokenKind.Open DelimKind.Round) ∧
    nestedSt.delimStart DelimKind.Round = some 0 ∧
    ((stepFn emptyCfg nestedSt).delimStart DelimKind.Round = some 0 ∧
      ∃ rest, (stepFn emptyCfg nestedSt).mistakes =
        nestedSt.mistakes ++ Mistake.NestedDelim DelimKind.Round 0 nestedSt.current :: rest) ∧
    ((runLoop emptyCfg unclosedSeg.tokens.length (initState unclosedSeg)).delimStart
        DelimKind.Round = some 0) ∧
    Mistake.UnclosedDelim DelimKind.Round 0 ∈ (Parser.parse emptyCfg unclosedSeg).mistakes :=
  ⟨by decide, by decide,
   open_delim_nested_keeps_outermost.1 emptyCfg nestedSt DelimKind.Round 0 (by decide) (by decide),
   by decide,
   open_delim_nested_keeps_outermost.2 emptyCfg unclosedSeg DelimKind.Round 0 (by decide)⟩

/-! ## Claim C7 — whole-string matcher semantics -/

theorem splitOnChar_ne_nil (sep : Char) (s : Str) : splitOnChar sep s ≠ [] := by
  induction s with
  | nil => simp [splitOnChar]
  | cons c rest ih =>
    by_cases hc : c = sep
    · simp [splitOnChar, hc]
    · rcases h : splitOnChar sep rest with _ | ⟨hd, tl⟩
      · exact absurd h ih
      · simp [splitOnChar, hc, h]

theorem splitOnChar_of_not_mem (sep : Char) (s : Str) (h : sep ∉ s) :
    splitOnChar sep s = [s] := by
  induction s with
  | nil => simp [splitOnChar]
  | cons c rest ih =>
    have hc : c ≠ sep := fun hcc => h (hcc ▸ List.mem_cons_self c rest)
    have hrest : sep ∉ rest := fun hr => h (List.mem_cons_of_mem c hr)
    simp [splitOnChar, hc, ih hrest]

theorem splitOnChar_append_sep (sep : Char) (s t : Str) (h : sep ∉ s) :
    splitOnChar sep (s ++ sep :: t) = s :: splitOnChar sep t := by
  induction s with
  | nil => simp [splitOnChar]
  | cons c rest ih =>
    have hc : c ≠ sep := fun hcc => h (hcc ▸ List.mem_cons_self c rest)
    have hrest : sep ∉ rest := fun hr => h (List.mem_cons_of_mem c hr)
    simp [splitOnChar, hc, ih hrest]

theorem splitOnChar_joinBar (l : List Str) (hne : l ≠ [])
    (hfree : ∀ e ∈ l, ('|' : Char) ∉ e) :
    splitOnChar '|' (joinBar l) = l := by
  induction l with
  | nil => exact absurd rfl hne
  | cons x rest ih =>
    cases rest with
    | nil => exact splitOnChar_of_not_mem '|' x (hfree x (List.mem_cons_self x []))
    | cons y rest2 =>
      have hx : ('|' : Char) ∉ x := hfree x (List.mem_cons_self _ _)
      have hrest : ∀ e ∈ y :: rest2, ('|' : Char) ∉ e := fun e he =>
        hfree e (List.mem_cons_of_mem x he)
      have : joinBar (x :: y :: rest2) = x ++ '|' :: joinBar (y :: rest2) := rfl
      rw [this, splitOnChar_append_sep '|' x _ hx, ih (by simp) hrest]

/-- C7 counterexample: a whitelist consisting of the single entry `""`
compiles (via the empty join) to the absent matcher, which rejects the
empty string even though the empty string equals a listed entry
character for character.  (The repository's own `test_config` pins this
behaviour down: "the empty string should never be valid".) -/
theorem is_match_empty_entry_counterexample :
    ParserConfig.is_match (slice_to_regex [([] : Str)]) [] = false ∧
    ([] : Str) ∈ [([] : Str)] := by
  constructor
  · rfl
  · simp

/-- C7 (amended): for entry lists free of regex metacharacters (in the
modelled fragment: the alternation bar) and not consisting of a single
empty entry, the compiled matcher accepts exactly the strings equal to
one of the listed entries in full; and the empty list compiles to a
matcher that rejects every string. -/
theorem slice_matcher_whole_string :
    (∀ (l : List Str) (s : Str), (∀ e ∈ l, ('|' : Char) ∉ e) → l ≠ [[]] →
      (ParserConfig.is_match (slice_to_regex l) s = true ↔ s ∈ l)) ∧
    (∀ s : Str, ParserConfig.is_match (slice_to_regex []) s = false) := by
  constructor
  · intro l s hfree hne1
    cases l with
    | nil => simp [slice_to_regex, joinBar, ParserConfig.is_match]
    | cons x rest =>
      have hjoin : joinBar (x :: rest) ≠ [] := by
        cases rest with
        | nil =>
          intro hx
          exact hne1 (by simpa [joinBar] using hx)
        | cons y rest2 =>
          show x ++ '|' :: joinBar (y :: rest2) ≠ []
          cases x <;> simp
      rw [slice_to_regex]
      simp only [hjoin, if_neg, if_false]
      rw [splitOnChar_joinBar (x :: rest) (by simp) hfree]
      simp [ParserConfig.is_match]
  · intro s
    rfl

theorem slice_matcher_whole_string_witness :
    (∀ e ∈ [['S', 'M']], ('|' : Char) ∉ e) ∧ ([['S', 'M']] : List Str) ≠ [[]] ∧
    (ParserConfig.is_match (slice_to_regex [['S', 'M']]) ['S', 'M'] = true ↔
      (['S', 'M'] : Str) ∈ [['S', 'M']]) :=
  ⟨by decide, by decide,
   slice_matcher_whole_string.1 [['S', 'M']] ['S', 'M'] (by decide) (by decide)⟩

/-! ## Claim C3 — numeral classification -/

/-- C3 counterexample: `NUMERIC_RE` is unanchored, so the token `a1` —
whose whole text does not match the numeral pattern — is nevertheless
classified as a numeral (any token containing a digit is): outside a
Round delimiter it is rejected with `BadToken` and dropped instead of
proceeding to the atom check. -/
theorem numeral_unanchored_counterexample :
    numeric_is_match ['a', '1'] = true ∧
    numeralSpecWholeMatch ['a', '1'] = false ∧
    (Parser.parse atomACfg a1Seg).mistakes = [Mistake.BadToken 0] ∧
    (Parser.parse atomACfg a1Seg).nodes = [] := by
  refine ⟨rfl, rfl, ?_, ?_⟩ <;> decide

/-- C3 (amended): a token is classified as a numeral exactly when its
text contains a substring matching `-?\d*?[,\.]?\d+` (equivalently,
contains a decimal digit); such a token is accepted as a `Node::Token`
with no mistake iff a Round delimiter is open, and otherwise yields
exactly one `BadToken` and no node — in either case independently of
the whitelist, blacklist and atom matchers (the numeral check takes
precedence), while a digit-free whitelisted token is accepted even with
no Round delimiter open. -/
theorem numeral_round_precedence :
    (∀ (cfg : ParserConfig) (st : Parser),
      numeric_is_match (tokenStrAt st st.current) = true →
      (st.round_start.isSome = true →
        (parse_word cfg st).mistakes = st.mistakes ∧
        (parse_word cfg st).nodes =
          st.nodes ++ [Node.Token (st.tokens.getD st.current dummyToken)]) ∧
      (st.round_start.isSome = false →
        (parse_word cfg st).mistakes = st.mistakes ++ [Mistake.BadToken st.current] ∧
        (parse_word cfg st).nodes = st.nodes)) ∧
    (∀ (cfg : ParserConfig) (st : Parser),
      numeric_is_match (tokenStrAt st st.current) = false →
      cfg.in_whitelist (tokenStrAt st st.current) = true →
      (parse_word cfg st).mistakes = st.mistakes ∧
      (parse_word cfg st).nodes =
        st.nodes ++ [Node.Token (st.tokens.getD st.current dummyToken)]) := by
  constructor
  · intro cfg st hnum
    simp only [tokenStrAt] at hnum
    constructor
    · intro hround
      unfold parse_word wordCheck
      dsimp only
      rw [hnum]
      simp [hround, get_token]
    · intro hround
      unfold parse_word wordCheck
      dsimp only
      rw [hnum]
      simp [hround, get_token]
  · intro cfg st hnum hwl
    simp only [tokenStrAt] at hnum hwl
    unfold parse_word wordCheck
    dsimp only
    rw [hnum, hwl]
    simp [get_token]

theorem numeral_round_precedence_witness :
    numeric_is_match (tokenStrAt roundNumSt roundNumSt.current) = true ∧
    roundNumSt.round_start.isSome = true ∧
    ((parse_word emptyCfg roundNumSt).mistakes = roundNumSt.mistakes ∧
      (parse_word emptyCfg roundNumSt).nodes =
        roundNumSt.nodes ++ [Node.Token (roundNumSt.tokens.getD roundNumSt.current dummyToken)]) :=
  ⟨by decide, by decide,
   (numeral_round_precedence.1 emptyCfg roundNumSt (by decide)).1 (by decide)⟩

/-! ## Claims C5/C6 — attribute-list parsing after an Angle-open -/

theorem attrLoop_mistakes_ok (cfg : ParserConfig) (atTok : Nat) (pieces : List Str) :
    ∀ codes,
      (attrLoop cfg atTok pieces codes).2.2 =
        (pieces.filter (fun c => !(cfg.in_after_angle c))).map
          (fun c => Mistake.BadAttr c atTok) ∧
      ((attrLoop cfg atTok pieces codes).2.1 = true ↔
        ∀ c ∈ pieces, cfg.in_after_angle c = true) := by
  induction pieces with
  | nil => intro codes; simp [attrLoop]
  | cons c rest ih =>
    intro codes
    by_cases hc : cfg.in_after_angle c = true
    · have := ih (if c = [] ∨ codes.contains c then codes else codes ++ [c])
      simpa [attrLoop, hc] using this
    · have hc' : cfg.in_after_angle c = false := by
        cases h : cfg.in_after_angle c
        · rfl
        · exact absurd h hc
      obtain ⟨h1, h2⟩ := ih codes
      constructor
      · simp [attrLoop, hc', h1]
      · simp only [attrLoop, hc', Bool.false_eq_true, if_false]
        constructor
        · intro hfalse
          exact absurd hfalse (by simp)
        · intro hall
          exact absurd (hall c (List.mem_cons_self _ _)) (by simp [hc'])

theorem attrLoop_codes (cfg : ParserConfig) (atTok : Nat) (pieces : List Str) :
    ∀ codes, codes.Nodup →
      (attrLoop cfg atTok pieces codes).1.Nodup ∧
      (∀ x, x ∈ (attrLoop cfg atTok pieces codes).1 ↔
        x ∈ codes ∨ (x ∈ pieces ∧ cfg.in_after_angle x = true ∧ x ≠ [])) := by
  induction pieces with
  | nil => intro codes hnd; simp [attrLoop, hnd]
  | cons c rest ih =>
    intro codes hnd
    by_cases hc : cfg.in_after_angle c = true
    · by_cases hskip : c = [] ∨ c ∈ codes
      · have hstep : attrLoop cfg atTok (c :: rest) codes = attrLoop cfg atTok rest codes := by
          simp [attrLoop, hc, hskip]
        obtain ⟨hnd', hmem⟩ := ih codes hnd
        rw [hstep]
        refine ⟨hnd', fun x => ?_⟩
        rw [hmem x]
        constructor
        · rintro (hx | ⟨hx1, hx2, hx3⟩)
          · exact Or.inl hx
          · exact Or.inr ⟨List.mem_cons_of_mem c hx1, hx2, hx3⟩
        · rintro (hx | ⟨hx1, hx2, hx3⟩)
          · exact Or.inl hx
          · rcases List.mem_cons.mp hx1 with hxc | hxr
            · subst hxc
              rcases hskip with hce | hcont
              · exact absurd hce hx3
              · exact Or.inl hcont
            · exact Or.inr ⟨hxr, hx2, hx3⟩
      · have hstep : attrLoop cfg atTok (c :: rest) codes =
            attrLoop cfg atTok rest (codes ++ [c]) := by
          simp [attrLoop, hc, hskip]
        push_neg at hskip
        obtain ⟨hce, hcont⟩ := hskip
        have hnd2 : (codes ++ [c]).Nodup := by
          simp [List.nodup_append, hnd, hcont]
        obtain ⟨hnd', hmem⟩ := ih (codes ++ [c]) hnd2
        rw [hstep]
        refine ⟨hnd', fun x => ?_⟩
        rw [hmem x]
        constructor
        · rintro (hx | ⟨hx1, hx2, hx3⟩)
          · rcases List.mem_append.mp hx with hx | hx
            · exact Or.inl hx
            · have hxc : x = c := by simpa using hx
              subst hxc
              exact Or.inr ⟨List.mem_cons_self _ _, hc, hce⟩
          · exact Or.inr ⟨List.mem_cons_of_mem c hx1, hx2, hx3⟩
        · rintro (hx | ⟨hx1, hx2, hx3⟩)
          · exact Or.inl (List.mem_append.mpr (Or.inl hx))
          · rcases List.mem_cons.mp hx1 with hxc | hxr
            · subst hxc
              exact Or.inl (List.mem_append.mpr (Or.inr (by simp)))
            · exact Or.inr ⟨hxr, hx2, hx3⟩
    · have hc' : cfg.in_after_angle c = false := by
        cases h : cfg.in_after_angle c
        · rfl
        · exact absurd h hc
      have hstep : (attrLoop cfg atTok (c :: rest) codes).1 =
          (attrLoop cfg atTok rest codes).1 := by
        simp [attrLoop, hc']
      obtain ⟨hnd', hmem⟩ := ih codes hnd
      rw [hstep]
      refine ⟨hnd', fun x => ?_⟩
      rw [hmem x]
      constructor
      · rintro (hx | ⟨hx1, hx2, hx3⟩)
        · exact Or.inl hx
        · exact Or.inr ⟨List.mem_cons_of_mem c hx1, hx2, hx3⟩
      · rintro (hx | ⟨hx1, hx2, hx3⟩)
        · exact Or.inl hx
        · rcases List.mem_cons.mp hx1 with hxc | hxr
          · subst hxc
            exact absurd hx2 (by simp [hc'])
          · exact Or.inr ⟨hxr, hx2, hx3⟩

theorem attrCheck_word (cfg : ParserConfig) (tokens : List Token) (source : Str) (next : Nat)
    (hlen : next ≠ tokens.length)
    (hk : (tokens.getD next dummyToken).kind = TokenKind.NonDelim) :
    attrCheck cfg tokens source next =
      ((attrLoop cfg next (splitOnChar '_' (get_token next tokens source).2) []).2.2,
       (if (attrLoop cfg next (splitOnChar '_' (get_token next tokens source).2) []).2.1 = true
        then [Node.AttrList
          ((attrLoop cfg next (splitOnChar '_' (get_token next tokens source).2)
            []).1.insertionSort (· ≤ ·))]
        else []),
       next + 1) := by
  unfold attrCheck
  rw [if_neg hlen]
  dsimp only
  have hk1 : (get_token next tokens source).1.kind = TokenKind.NonDelim := by
    unfold get_token
    exact hk
  rw [if_neg (fun hcon => hcon hk1)]

/-- C5: after an accepted Angle-open whose following token is a
`NonDelim`, that token's text is split on `_`; one `BadAttr` mistake is
recorded per rejected piece, in order; and an `AttrList` node —
containing exactly the accepted, non-empty, de-duplicated pieces in
ascending (duplicate-free sorted) order — is emitted iff every piece is
accepted, the Angle-open's own `Node::Open` being emitted either way.
In particular the input `"<SM_SJ foo>"` under the after-angle whitelist
{SM, SJ} produces the node `AttrList(["SJ","SM"])`. -/
theorem after_angle_attr_list_all_or_nothing :
    (∀ (cfg : ParserConfig) (st : Parser),
      (st.tokens.getD st.current dummyToken).kind = TokenKind.Open DelimKind.Angle →
      st.angle_start = none →
      st.current + 1 ≠ st.tokens.length →
      (st.tokens.getD (st.current + 1) dummyToken).kind = TokenKind.NonDelim →
      ((stepFn cfg st).mistakes = st.mistakes ++
        ((splitOnChar '_' (tokenStrAt st (st.current + 1))).filter
          (fun c => !(cfg.in_after_angle c))).map
            (fun c => Mistake.BadAttr c (st.current + 1)) ∧
       ((∀ c ∈ splitOnChar '_' (tokenStrAt st (st.current + 1)),
            cfg.in_after_angle c = true) →
         ∃ cs, (stepFn cfg st).nodes =
             st.nodes ++ [Node.Open DelimKind.Angle, Node.AttrList cs] ∧
           cs.Sorted (· ≤ ·) ∧ cs.Nodup ∧
           (∀ x, x ∈ cs ↔
             x ∈ splitOnChar '_' (tokenStrAt st (st.current + 1)) ∧ x ≠ [])) ∧
       ((∃ c ∈ splitOnChar '_' (tokenStrAt st (st.current + 1)),
            cfg.in_after_angle c = false) →
         (stepFn cfg st).nodes = st.nodes ++ [Node.Open DelimKind.Angle]))) ∧
    (Parser.parse (ParserConfig.from_args [] [] [] [['S', 'M'], ['S', 'J']])
        (tokenize ['<', 'S', 'M', '_', 'S', 'J', ' ', 'f', 'o', 'o', '>'])).nodes =
      [Node.Open DelimKind.Angle,
       Node.AttrList [['S', 'J'], ['S', 'M']],
       Node.Token ⟨TokenKind.NonDelim, 7, 10⟩,
       Node.Close DelimKind.Angle] := by
  constructor
  · intro cfg st hk ha hlen hk2
    unfold stepFn
    rw [hk]
    dsimp only
    unfold parse_open_angle
    rw [ha]
    dsimp only
    rw [attrCheck_word cfg st.tokens st.source (st.current + 1) hlen hk2]
    dsimp only
    simp only [tokenStrAt]
    obtain ⟨hm, hok⟩ :=
      attrLoop_mistakes_ok cfg (st.current + 1)
        (splitOnChar '_' (get_token (st.current + 1) st.tokens st.source).2) []
    obtain ⟨hnd, hmem⟩ :=
      attrLoop_codes cfg (st.current + 1)
        (splitOnChar '_' (get_token (st.current + 1) st.tokens st.source).2) []
        List.nodup_nil
    refine ⟨by rw [hm], ?_, ?_⟩
    · intro hall
      rw [if_pos (hok.mpr hall)]
      refine ⟨_, by simp, List.sorted_insertionSort _ _,
        (List.perm_insertionSort _ _).nodup_iff.mpr hnd, ?_⟩
      intro x
      rw [(List.perm_insertionSort (· ≤ ·)
        (attrLoop cfg (st.current + 1)
          (splitOnChar '_' (get_token (st.current + 1) st.tokens st.source).2) []).1).mem_iff]
      rw [hmem x]
      constructor
      · rintro (hx | ⟨hx1, _, hx3⟩)
        · exact absurd hx (List.not_mem_nil x)
        · exact ⟨hx1, hx3⟩
      · rintro ⟨hx1, hx3⟩
        exact Or.inr ⟨hx1, hall x hx1, hx3⟩
    · intro hbad
      have : ¬ (attrLoop cfg (st.current + 1)
          (splitOnChar '_' (get_token (st.current + 1) st.tokens st.source).2) []).2.1 = true := by
        rw [hok]
        intro hall
        obtain ⟨c, hc1, hc2⟩ := hbad
        rw [hall c hc1] at hc2
        exact Bool.true_eq_false.mp hc2
      rw [if_neg this]
      simp
  · decide

theorem after_angle_attr_list_all_or_nothing_witness :
    ((angleSt.tokens.getD angleSt.current dummyToken).kind =
        TokenKind.Open DelimKind.Angle) ∧
    angleSt.angle_start = none ∧
    angleSt.current + 1 ≠ angleSt.tokens.length ∧
    ((angleSt.tokens.getD (angleSt.current + 1) dummyToken).kind = TokenKind.NonDelim) ∧
    ((stepFn smCfg angleSt).mistakes = angleSt.mistakes ++
        ((splitOnChar '_' (tokenStrAt angleSt (angleSt.current + 1))).filter
          (fun c => !(smCfg.in_after_angle c))).map
            (fun c => Mistake.BadAttr c (angleSt.current + 1)) ∧
      ((∀ c ∈ splitOnChar '_' (tokenStrAt angleSt (angleSt.current + 1)),
          smCfg.in_after_angle c = true) →
        ∃ cs, (stepFn smCfg angleSt).nodes =
            angleSt.nodes ++ [Node.Open DelimKind.Angle, Node.AttrList cs] ∧
          cs.Sorted (· ≤ ·) ∧ cs.Nodup ∧
          (∀ x, x ∈ cs ↔
            x ∈ splitOnChar '_' (tokenStrAt angleSt (angleSt.current + 1)) ∧ x ≠ [])) ∧
      ((∃ c ∈ splitOnChar '_' (tokenStrAt angleSt (angleSt.current + 1)),
          smCfg.in_after_angle c = false) →
        (stepFn smCfg angleSt).nodes = angleSt.nodes ++ [Node.Open DelimKind.Angle])) :=
  ⟨by decide, by decide, by decide, by decide,
   after_angle_attr_list_all_or_nothing.1 smCfg angleSt
     (by decide) (by decide) (by decide) (by decide)⟩

/-! Claim C6 -/

/-- C6 counterexample: on input `"<<x"` the second `<` is reported as
`NestedDelim` and nevertheless triggers attribute-list parsing of the
following token `x`, producing `BadAttr("x", 2)` — the accepted
Angle-open at index 0 looked only at the token at index 1 (yielding
`MissingAttrs 1`), so the `BadAttr` can only come from the nested
open. -/
theorem nested_angle_attrs_counterexample :
    (Parser.parse smCfg (tokenize ['<', '<', 'x'])).mistakes =
      [Mistake.MissingAttrs 1,
       Mistake.NestedDelim DelimKind.Angle 0 1,
       Mistake.BadAttr ['x'] 2,
       Mistake.UnclosedDelim DelimKind.Angle 0] := by
  decide

/-- C6 (amended): attribute-list parsing runs after *every* Angle-open,
also one reported as `NestedDelim`: a nested Angle-open appends exactly
the `NestedDelim` mistake followed by the same attribute mistakes,
nodes and index advance that the accepted case would produce (minus the
`Node::Open`). -/
theorem nested_angle_still_parses_attrs :
    ∀ (cfg : ParserConfig) (st : Parser) (i : Nat),
      (st.tokens.getD st.current dummyToken).kind = TokenKind.Open DelimKind.Angle →
      st.angle_start = some i →
      ∃ dm dn c2,
        (stepFn cfg st).mistakes =
          st.mistakes ++ Mistake.NestedDelim DelimKind.Angle i st.current :: dm ∧
        (stepFn cfg st).nodes = st.nodes ++ dn ∧
        (stepFn cfg st).current = c2 ∧
        (stepFn cfg { st with angle_start := none }).mistakes = st.mistakes ++ dm ∧
        (stepFn cfg { st with angle_start := none }).nodes =
          st.nodes ++ Node.Open DelimKind.Angle :: dn ∧
        (stepFn cfg { st with angle_start := none }).current = c2 := by
  intro cfg st i hk ha
  unfold stepFn
  rw [hk]
  dsimp only
  unfold parse_open_angle
  rw [ha]
  dsimp only
  refine ⟨(attrCheck cfg st.tokens st.source (st.current + 1)).1,
    (attrCheck cfg st.tokens st.source (st.current + 1)).2.1,
    (attrCheck cfg st.tokens st.source (st.current + 1)).2.2,
    by simp, rfl, rfl, rfl, by simp, rfl⟩

theorem nested_angle_still_parses_attrs_witness :
    ((nestedAngleSt.tokens.getD nestedAngleSt.current dummyToken).kind =
        TokenKind.Open DelimKind.Angle) ∧
    nestedAngleSt.angle_start = some 0 ∧
    (∃ dm dn c2,
      (stepFn smCfg nestedAngleSt).mistakes =
        nestedAngleSt.mistakes ++
          Mistake.NestedDelim DelimKind.Angle 0 nestedAngleSt.current :: dm ∧
      (stepFn smCfg nestedAngleSt).nodes = nestedAngleSt.nodes ++ dn ∧
      (stepFn smCfg nestedAngleSt).current = c2 ∧
      (stepFn smCfg { nestedAngleSt with angle_start := none }).mistakes =
        nestedAngleSt.mistakes ++ dm ∧
      (stepFn smCfg { nestedAngleSt with angle_start := none }).nodes =
        nestedAngleSt.nodes ++ Node.Open DelimKind.Angle :: dn ∧
      (stepFn smCfg { nestedAngleSt with angle_start := none }).current = c2) :=
  ⟨by decide, by decide,
   nested_angle_still_parses_attrs smCfg nestedAngleSt 0 (by decide) (by decide)⟩

/-! ## Claims C1/C2 — atom tiling: gap mistakes and node emission -/

theorem atomScan_spec (atTok : Nat) (ms : List (Nat × Nat)) :
    ∀ p,
      (atomScan atTok ms p).1 =
        (((p :: ms.map Prod.snd).zip (ms.map Prod.fst)).filter (fun g => g.1 ≠ g.2)).map
          (fun g => Mistake.BadSubstr g.1 g.2 atTok) ∧
      ((atomScan atTok ms p).2.1 = true ↔
        ((p :: ms.map Prod.snd).zip (ms.map Prod.fst)).filter (fun g => g.1 ≠ g.2) = []) ∧
      (atomScan atTok ms p).2.2 = (ms.map Prod.snd).getLastD p := by
  induction ms with
  | nil => intro p; simp [atomScan]
  | cons m rest ih =>
    intro p
    obtain ⟨s, e⟩ := m
    obtain ⟨ih1, ih2, ih3⟩ := ih e
    by_cases hsp : s = p
    · subst hsp
      have hstep : atomScan atTok ((s, e) :: rest) s = atomScan atTok rest e := by
        simp [atomScan]
      rw [hstep]
      refine ⟨?_, ?_, ?_⟩
      · rw [ih1]
        simp
      · rw [ih2]
        simp
      · rw [ih3]
        rw [List.map_cons, List.getLastD_cons]
    · have hstep : atomScan atTok ((s, e) :: rest) p =
          (Mistake.BadSubstr p s atTok :: (atomScan atTok rest e).1, false,
            (atomScan atTok rest e).2.2) := by
        simp [atomScan, hsp]
      rw [hstep]
      have hps : ¬ p = s := fun hh => hsp hh.symm
      refine ⟨?_, ?_, ?_⟩
      · rw [ih1]
        simp [hps]
      · simp [hps]
      · rw [ih3]
        rw [List.map_cons, List.getLastD_cons]

theorem wordCheck_atoms (cfg : ParserConfig) (roundOpen : Bool) (atTok : Nat) (ts : Str)
    (branches : List Str) (hbr : cfg.atoms = some branches)
    (hnum : numeric_is_match ts = false)
    (hwl : cfg.in_whitelist ts = false)
    (hbl : cfg.in_blacklist ts = false) :
    (wordCheck cfg roundOpen atTok ts).2 =
      (innerGaps (findIter branches ts)).map (fun g => Mistake.BadSubstr g.1 g.2 atTok) ++
      (if lastMatchEnd (findIter branches ts) ≠ ts.length
        then [Mistake.BadSubstr 0 ts.length atTok] else []) ∧
    ((wordCheck cfg roundOpen atTok ts).1 = true ↔
      innerGaps (findIter branches ts) = []) := by
  obtain ⟨h1, h2, h3⟩ := atomScan_spec atTok (findIter branches ts) 0
  unfold wordCheck
  rw [hnum, hwl, hbl, hbr]
  simp only [Bool.false_eq_true, if_false]
  rw [innerGaps, lastMatchEnd]
  exact ⟨by rw [← h1, ← h3], by rw [← h2]⟩

theorem matchChain_weaken (q p : Nat) (ms : List (Nat × Nat)) (h : q ≤ p)
    (hm : MatchChain p ms) : MatchChain q ms := by
  cases ms with
  | nil => trivial
  | cons m rest =>
    obtain ⟨s, e⟩ := m
    obtain ⟨h1, h2, h3⟩ := hm
    exact ⟨le_trans h h1, h2, h3⟩

theorem findIterFromAux_chain (branches : List Str) :
    ∀ (fuel : Nat) (rem : Str) (p : Nat), MatchChain p (findIterFromAux branches fuel rem p) := by
  intro fuel
  induction fuel with
  | zero => intro rem p; trivial
  | succ n ih =>
    intro rem p
    cases rem with
    | nil =>
      unfold findIterFromAux
      rcases firstMatchLen branches [] with _ | k
      · trivial
      · exact ⟨le_refl p, le_refl p, trivial⟩
    | cons c tl =>
      unfold findIterFromAux
      dsimp only
      rcases hfm : firstMatchLen branches (c :: tl) with _ | k
      · exact matchChain_weaken p (p + 1) _ (Nat.le_succ p) (ih tl (p + 1))
      · cases k with
        | zero =>
          refine ⟨le_refl p, le_refl p, ?_⟩
          have hmax : max p (p + 1) = p + 1 := by omega
          rw [hmax]
          exact ih tl (p + 1)
        | succ k =>
          refine ⟨le_refl p, by omega, ?_⟩
          have hmax : max (p + (k + 1)) (p + 1) = p + (k + 1) := by omega
          rw [hmax]
          exact ih ((c :: tl).drop (k + 1)) (p + (k + 1))

/-- C1 counterexample, two parts.  (a) With atoms `["a"]` the token
`ab` has the single atom match `(0,1)` and the trailing unmatched run
`(1,2)`; the code reports `BadSubstr{start: 0, end: 2}` — the whole
token span — not `BadSubstr{start: 1, end: 2}` as the claim's
"start/end equal to that gap's offsets" requires.  (b) With an empty
atoms list the token `x` produces no mistake at all, not a single
whole-token gap. -/
theorem atom_trailing_gap_counterexample :
    ((Parser.parse atomACfg abSeg).mistakes = [Mistake.BadSubstr 0 2 0] ∧
      Mistake.BadSubstr 1 2 0 ∉ (Parser.parse atomACfg abSeg).mistakes) ∧
    (Parser.parse emptyCfg xSeg).mistakes = [] := by
  refine ⟨⟨?_, ?_⟩, ?_⟩ <;> decide

/-- C1 (amended): for a config with compiled atoms and a token passing
the numeral/whitelist/blacklist checks, the recorded mistakes are
exactly one `BadSubstr{prev_end, start}` per gap before or between
consecutive matches (offsets relative to the token's own start), plus —
when the last match does not reach end-of-token — one additional
`BadSubstr{0, token_len}` spanning the whole token (not the trailing
gap's own offsets); the match list is an ordered left-to-right tiling
attempt, so those gaps are the maximal unmatched runs.  With an empty
atoms list no atom check runs: no mistake is reported and the token is
accepted. -/
theorem atom_tiling_gap_mistakes :
    (∀ (cfg : ParserConfig) (st : Parser) (branches : List Str),
      cfg.atoms = some branches →
      numeric_is_match (tokenStrAt st st.current) = false →
      cfg.in_whitelist (tokenStrAt st st.current) = false →
      cfg.in_blacklist (tokenStrAt st st.current) = false →
      (parse_word cfg st).mistakes = st.mistakes ++
        ((innerGaps (findIter branches (tokenStrAt st st.current))).map
          (fun g => Mistake.BadSubstr g.1 g.2 st.current) ++
        (if lastMatchEnd (findIter branches (tokenStrAt st st.current)) ≠
            (tokenStrAt st st.current).length
          then [Mistake.BadSubstr 0 (tokenStrAt st st.current).length st.current]
          else [])) ∧
      MatchChain 0 (findIter branches (tokenStrAt st st.current))) ∧
    (∀ (cfg : ParserConfig) (st : Parser),
      cfg.atoms = none →
      numeric_is_match (tokenStrAt st st.current) = false →
      cfg.in_whitelist (tokenStrAt st st.current) = false →
      cfg.in_blacklist (tokenStrAt st st.current) = false →
      (parse_word cfg st).mistakes = st.mistakes ∧
      (parse_word cfg st).nodes =
        st.nodes ++ [Node.Token (st.tokens.getD st.current dummyToken)]) := by
  constructor
  · intro cfg st branches hbr hnum hwl hbl
    simp only [tokenStrAt] at hnum hwl hbl ⊢
    obtain ⟨h1, h2⟩ := wordCheck_atoms cfg st.round_start.isSome st.current
      (get_token st.current st.tokens st.source).2 branches hbr hnum hwl hbl
    constructor
    · show st.mistakes ++ _ = _
      rw [h1]
    · exact findIterFromAux_chain branches
        ((get_token st.current st.tokens st.source).2.length + 1)
        (get_token st.current st.tokens st.source).2 0
  · intro cfg st hbr hnum hwl hbl
    simp only [tokenStrAt] at hnum hwl hbl
    simp only [parse_word, wordCheck, hnum, hwl, hbl, hbr]
    simp [get_token]

theorem atom_tiling_gap_mistakes_witness :
    atomACfg.atoms = some [['a']] ∧
    numeric_is_match (tokenStrAt abSt abSt.current) = false ∧
    atomACfg.in_whitelist (tokenStrAt abSt abSt.current) = false ∧
    atomACfg.in_blacklist (tokenStrAt abSt abSt.current) = false ∧
    ((parse_word atomACfg abSt).mistakes = abSt.mistakes ++
        ((innerGaps (findIter [['a']] (tokenStrAt abSt abSt.current))).map
          (fun g => Mistake.BadSubstr g.1 g.2 abSt.current) ++
        (if lastMatchEnd (findIter [['a']] (tokenStrAt abSt abSt.current)) ≠
            (tokenStrAt abSt abSt.current).length
          then [Mistake.BadSubstr 0 (tokenStrAt abSt abSt.current).length abSt.current]
          else [])) ∧
      MatchChain 0 (findIter [['a']] (tokenStrAt abSt abSt.current))) :=
  ⟨by decide, by decide, by decide, by decide,
   atom_tiling_gap_mistakes.1 atomACfg abSt [['a']]
     (by decide) (by decide) (by decide) (by decide)⟩

/-- C2 counterexample: with atoms `["a","b"]` the token `%b` has the
single match `(1,2)` and the leading gap `(0,1)`; its only mistake is a
`BadSubstr` (no `BadToken`: neither the numeral nor the blacklist check
fired), yet the token is dropped from the node sequence — a
gap-before-a-match clears `word_ok`. -/
theorem atom_gap_drops_node_counterexample :
    Mistake.BadSubstr 0 1 0 ∈ (Parser.parse abCfg pbSeg).mistakes ∧
    Mistake.BadToken 0 ∉ (Parser.parse abCfg pbSeg).mistakes ∧
    (Parser.parse abCfg pbSeg).nodes = [] := by
  refine ⟨?_, ?_, ?_⟩ <;> decide

/-- C2 (amended): a token reaching the atom-tiling step is emitted as a
`Node::Token` iff there is no gap before or between atom matches; a gap
*after* the last match (reported as a whole-token `BadSubstr`) does not
suppress the node, so a token can carry a `BadSubstr` mistake and still
be emitted — but leading/internal gaps drop the node just as
numeral-outside-Round and blacklist failures do. -/
theorem atom_gap_node_emission :
    ∀ (cfg : ParserConfig) (st : Parser) (branches : List Str),
      cfg.atoms = some branches →
      numeric_is_match (tokenStrAt st st.current) = false →
      cfg.in_whitelist (tokenStrAt st st.current) = false →
      cfg.in_blacklist (tokenStrAt st st.current) = false →
      (((parse_word cfg st).nodes =
          st.nodes ++ [Node.Token (st.tokens.getD st.current dummyToken)]) ↔
        innerGaps (findIter branches (tokenStrAt st st.current)) = []) ∧
      (innerGaps (findIter branches (tokenStrAt st st.current)) = [] →
        lastMatchEnd (findIter branches (tokenStrAt st st.current)) ≠
          (tokenStrAt st st.current).length →
        Mistake.BadSubstr 0 (tokenStrAt st st.current).length st.current ∈
          (parse_word cfg st).mistakes) := by
  intro cfg st branches hbr hnum hwl hbl
  simp only [tokenStrAt] at hnum hwl hbl ⊢
  obtain ⟨h1, h2⟩ := wordCheck_atoms cfg st.round_start.isSome st.current
    (get_token st.current st.tokens st.source).2 branches hbr hnum hwl hbl
  constructor
  · constructor
    · intro hnodes
      by_contra hgaps
      have hok : (wordCheck cfg st.round_start.isSome st.current
          (get_token st.current st.tokens st.source).2).1 ≠ true := fun hh => hgaps (h2.mp hh)
      have hfalse : (wordCheck cfg st.round_start.isSome st.current
          (get_token st.current st.tokens st.source).2).1 = false := by
        cases hcase : (wordCheck cfg st.round_start.isSome st.current
            (get_token st.current st.tokens st.source).2).1
        · rfl
        · exact absurd hcase hok
      have : (parse_word cfg st).nodes = st.nodes := by
        unfold parse_word
        dsimp only
        rw [hfalse]
        simp
      rw [this] at hnodes
      have := congrArg List.length hnodes
      simp at this
    · intro hgaps
      have hok : (wordCheck cfg st.round_start.isSome st.current
          (get_token st.current st.tokens st.source).2).1 = true := h2.mpr hgaps
      unfold parse_word
      dsimp only
      rw [hok]
      simp [get_token]
  · intro hgaps htrail
    show Mistake.BadSubstr 0 (get_token st.current st.tokens st.source).2.length st.current ∈
      st.mistakes ++ _
    rw [h1, hgaps]
    simp [htrail]

theorem atom_gap_node_emission_witness :
    abCfg.atoms = some [['b'], ['a']] ∧
    numeric_is_match (tokenStrAt pbSt pbSt.current) = false ∧
    abCfg.in_whitelist (tokenStrAt pbSt pbSt.current) = false ∧
    abCfg.in_blacklist (tokenStrAt pbSt pbSt.current) = false ∧
    ((((parse_word abCfg pbSt).nodes =
        pbSt.nodes ++ [Node.Token (pbSt.tokens.getD pbSt.current dummyToken)]) ↔
      innerGaps (findIter [['b'], ['a']] (tokenStrAt pbSt pbSt.current)) = []) ∧
     (innerGaps (findIter [['b'], ['a']] (tokenStrAt pbSt pbSt.current)) = [] →
       lastMatchEnd (findIter [['b'], ['a']] (tokenStrAt pbSt pbSt.current)) ≠
         (tokenStrAt pbSt pbSt.current).length →
       Mistake.BadSubstr 0 (tokenStrAt pbSt pbSt.current).length pbSt.current ∈
         (parse_word abCfg pbSt).mistakes)) :=
  ⟨by decide, by decide, by decide, by decide,
   atom_gap_node_emission abCfg pbSt [['b'], ['a']]
     (by decide) (by decide) (by decide) (by decide)⟩

/-! ## Claim C10 — the token after an Angle-open is consumed by
attribute parsing, never word-classified -/

theorem wordCheck_mistakes_shape (cfg : ParserConfig) (ro : Bool) (atTok : Nat) (ts : Str) :
    ∀ m ∈ (wordCheck cfg ro atTok ts).2,
      m = Mistake.BadToken atTok ∨ ∃ a b, m = Mistake.BadSubstr a b atTok := by
  intro m hm
  unfold wordCheck at hm
  by_cases hnum : numeric_is_match ts = true
  · rw [if_pos hnum] at hm
    split at hm <;> simp_all
  · rw [if_neg hnum] at hm
    by_cases hwl : cfg.in_whitelist ts = true
    · rw [if_pos hwl] at hm
      simp at hm
    · rw [if_neg hwl] at hm
      by_cases hbl : cfg.in_blacklist ts = true
      · rw [if_pos hbl] at hm
        simp_all
      · rw [if_neg hbl] at hm
        rcases hbr : cfg.atoms with _ | branches
        · rw [hbr] at hm
          simp at hm
        · rw [hbr] at hm
          dsimp only at hm
          rcases List.mem_append.mp hm with hin | hin
          · obtain ⟨h1, -, -⟩ := atomScan_spec atTok (findIter branches ts) 0
            rw [h1] at hin
            obtain ⟨g, -, hg⟩ := List.mem_map.mp hin
            exact Or.inr ⟨g.1, g.2, hg.symm⟩
          · split at hin <;> simp_all

theorem attrCheck_mistakes_shape (cfg : ParserConfig) (tokens : List Token) (source : Str)
    (next : Nat) :
    ∀ m ∈ (attrCheck cfg tokens source next).1,
      m = Mistake.MissingAttrs next ∨ ∃ c, m = Mistake.BadAttr c next := by
  intro m hm
  unfold attrCheck at hm
  split at hm
  · simp_all
  · dsimp only at hm
    split at hm
    · simp_all
    · dsimp only at hm
      obtain ⟨hms, -⟩ := attrLoop_mistakes_ok cfg next
        (splitOnChar '_' (get_token next tokens source).2) []
      rw [hms] at hm
      obtain ⟨c, -, hc⟩ := List.mem_map.mp hm
      exact Or.inr ⟨c, hc.symm⟩

theorem stepFn_mistakes_shape (cfg : ParserConfig) (st : Parser) (k : Nat)
    (hne : st.current ≠ k) :
    ∀ m ∈ (stepFn cfg st).mistakes, m ∈ st.mistakes ∨ isWordMistakeAt m k = false := by
  have single : ∀ (m : Mistake), (∀ a, m ≠ Mistake.BadToken a) →
      (∀ a b c, m ≠ Mistake.BadSubstr a b c) → isWordMistakeAt m k = false := by
    intro m h1 h2
    cases m with
    | BadToken a => exact absurd rfl (h1 a)
    | BadSubstr a b c => exact absurd rfl (h2 a b c)
    | NestedDelim _ _ _ => rfl
    | ClosingUnopenedDelim _ _ => rfl
    | UnclosedDelim _ _ => rfl
    | MissingAttrs _ => rfl
    | BadAttr _ _ => rfl
  intro m hm
  unfold stepFn at hm
  rcases hkind : (st.tokens.getD st.current dummyToken).kind with _ | dk | dk
  · rw [hkind] at hm
    unfold parse_word at hm
    dsimp only at hm
    rcases List.mem_append.mp hm with hin | hin
    · exact Or.inl hin
    · rcases wordCheck_mistakes_shape cfg st.round_start.isSome st.current
        (get_token st.current st.tokens st.source).2 m hin with hbt | ⟨a, b, hbs⟩
      · subst hbt
        right
        simp [isWordMistakeAt, hne]
      · subst hbs
        right
        simp [isWordMistakeAt, hne]
  · rw [hkind] at hm
    cases dk
    · unfold parse_open_round at hm
      rcases hr : st.round_start with _ | v
      · rw [hr] at hm
        exact Or.inl hm
      · rw [hr] at hm
        dsimp only at hm
        rcases List.mem_append.mp hm with hin | hin
        · exact Or.inl hin
        · rcases List.mem_singleton.mp hin with rfl
          exact Or.inr (single _ (by intro a h; cases h) (by intro a b c h; cases h))
    · unfold parse_open_square at hm
      rcases hr : st.square_start with _ | v
      · rw [hr] at hm
        exact Or.inl hm
      · rw [hr] at hm
        dsimp only at hm
        rcases List.mem_append.mp hm with hin | hin
        · exact Or.inl hin
        · rcases List.mem_singleton.mp hin with rfl
          exact Or.inr (single _ (by intro a h; cases h) (by intro a b c h; cases h))
    · unfold parse_open_angle at hm
      have hattr : ∀ m2 ∈ (attrCheck cfg st.tokens st.source (st.current + 1)).1,
          isWordMistakeAt m2 k = false := by
        intro m2 hm2
        rcases attrCheck_mistakes_shape cfg st.tokens st.source (st.current + 1) m2 hm2 with
          hmiss | ⟨c, hba⟩
        · subst hmiss
          rfl
        · subst hba
          rfl
      rcases hr : st.angle_start with _ | v
      · rw [hr] at hm
        dsimp only at hm
        rcases List.mem_append.mp hm with hin | hin
        · exact Or.inl hin
        · exact Or.inr (hattr m hin)
      · rw [hr] at hm
        dsimp only at hm
        rcases List.mem_append.mp hm with hin | hin
        · rcases List.mem_append.mp hin with hin2 | hin2
          · exact Or.inl hin2
          · rcases List.mem_singleton.mp hin2 with rfl
            exact Or.inr (single _ (by intro a h; cases h) (by intro a b c h; cases h))
        · exact Or.inr (hattr m hin)
  · rw [hkind] at hm
    cases dk
    · unfold parse_close_round at hm
      rcases hr : st.round_start with _ | v
      · rw [hr] at hm
        dsimp only at hm
        rcases List.mem_append.mp hm with hin | hin
        · exact Or.inl hin
        · rcases List.mem_singleton.mp hin with rfl
          exact Or.inr (single _ (by intro a h; cases h) (by intro a b c h; cases h))
      · rw [hr] at hm
        exact Or.inl hm
    · unfold parse_close_square at hm
      rcases hr : st.square_start with _ | v
      · rw [hr] at hm
        dsimp only at hm
        rcases List.mem_append.mp hm with hin | hin
        · exact Or.inl hin
        · rcases List.mem_singleton.mp hin with rfl
          exact Or.inr (single _ (by intro a h; cases h) (by intro a b c h; cases h))
      · rw [hr] at hm
        exact Or.inl hm
    · unfold parse_close_angle at hm
      rcases hr : st.angle_start with _ | v
      · rw [hr] at hm
        dsimp only at hm
        rcases List.mem_append.mp hm with hin | hin
        · exact Or.inl hin
        · rcases List.mem_singleton.mp hin with rfl
          exact Or.inr (single _ (by intro a h; cases h) (by intro a b c h; cases h))
      · rw [hr] at hm
        exact Or.inl hm

theorem stepFn_token_nodes (cfg : ParserConfig) (st : Parser) :
    ∀ u, Node.Token u ∈ (stepFn cfg st).nodes →
      Node.Token u ∈ st.nodes ∨ u = st.tokens.getD st.current dummyToken := by
  intro u hu
  unfold stepFn at hu
  rcases hkind : (st.tokens.getD st.current dummyToken).kind with _ | dk | dk
  · rw [hkind] at hu
    unfold parse_word at hu
    dsimp only at hu
    split at hu
    · rcases List.mem_append.mp hu with hin | hin
      · exact Or.inl hin
      · exact Or.inr (Node.Token.inj (List.mem_singleton.mp hin))
    · exact Or.inl hu
  · rw [hkind] at hu
    cases dk
    · unfold parse_open_round at hu
      rcases hr : st.round_start with _ | v <;> rw [hr] at hu <;> dsimp only at hu
      · rcases List.mem_append.mp hu with hin | hin
        · exact Or.inl hin
        · simp at hin
      · exact Or.inl hu
    · unfold parse_open_square at hu
      rcases hr : st.square_start with _ | v <;> rw [hr] at hu <;> dsimp only at hu
      · rcases List.mem_append.mp hu with hin | hin
        · exact Or.inl hin
        · simp at hin
      · exact Or.inl hu
    · unfold parse_open_angle at hu
      have hshape : Node.Token u ∉ (attrCheck cfg st.tokens st.source (st.current + 1)).2.1 := by
        intro hnd
        unfold attrCheck at hnd
        split at hnd
        · simp at hnd
        · dsimp only at hnd
          split at hnd
          · simp at hnd
          · dsimp only at hnd
            split at hnd <;> simp_all
      rcases hr : st.angle_start with _ | v <;> rw [hr] at hu <;> dsimp only at hu
      · rcases List.mem_append.mp hu with hin | hin
        · rcases List.mem_append.mp hin with hin2 | hin2
          · exact Or.inl hin2
          · simp at hin2
        · exact absurd hin hshape
      · rcases List.mem_append.mp hu with hin | hin
        · exact Or.inl hin
        · exact absurd hin hshape
  · rw [hkind] at hu
    cases dk
    · unfold parse_close_round at hu
      rcases hr : st.round_start with _ | v <;> rw [hr] at hu <;> dsimp only at hu
      · exact Or.inl hu
      · rcases List.mem_append.mp hu with hin | hin
        · exact Or.inl hin
        · simp at hin
    · unfold parse_close_square at hu
      rcases hr : st.square_start with _ | v <;> rw [hr] at hu <;> dsimp only at hu
      · exact Or.inl hu
      · rcases List.mem_append.mp hu with hin | hin
        · exact Or.inl hin
        · simp at hin
    · unfold parse_close_angle at hu
      rcases hr : st.angle_start with _ | v <;> rw [hr] at hu <;> dsimp only at hu
      · exact Or.inl hu
      · rcases List.mem_append.mp hu with hin | hin
        · exact Or.inl hin
        · simp at hin

theorem attrCheck_current (cfg : ParserConfig) (tokens : List Token) (source : Str)
    (next : Nat) :
    (attrCheck cfg tokens source next).2.2 = next ∨
    ((attrCheck cfg tokens source next).2.2 = next + 1 ∧
      (tokens.getD next dummyToken).kind = TokenKind.NonDelim) := by
  unfold attrCheck
  split
  · exact Or.inl rfl
  · dsimp only
    split
    · exact Or.inl rfl
    · rename_i hkd
      right
      refine ⟨rfl, ?_⟩
      have := not_ne_iff.mp hkd
      unfold get_token at this
      exact this

theorem stepFn_avoids (cfg : ParserConfig) (st : Parser) (i : Nat)
    (hk : (st.tokens.getD i dummyToken).kind = TokenKind.Open DelimKind.Angle)
    (hk2 : (st.tokens.getD (i + 1) dummyToken).kind = TokenKind.NonDelim)
    (hbound : i + 1 < st.tokens.length) :
    (stepFn cfg st).current ≠ i + 1 := by
  have hangle : st.current ≠ i →
      (attrCheck cfg st.tokens st.source (st.current + 1)).2.2 ≠ i + 1 := by
    intro hci
    rcases attrCheck_current cfg st.tokens st.source (st.current + 1) with hc | ⟨hc, hkd⟩
    · omega
    · rw [hc]
      intro hcon
      have heq : st.current + 1 = i := by omega
      rw [heq] at hkd
      rw [hkd] at hk
      exact TokenKind.noConfusion hk
  by_cases hci : st.current = i
  · unfold stepFn
    rw [hci, hk]
    dsimp only
    unfold parse_open_angle
    have hlen : i + 1 ≠ st.tokens.length := by omega
    rcases ha : st.angle_start with _ | v <;> dsimp only <;>
      rw [hci, attrCheck_word cfg st.tokens st.source (i + 1) hlen hk2] <;> dsimp only <;> omega
  · unfold stepFn
    rcases hkind : (st.tokens.getD st.current dummyToken).kind with _ | dk | dk
    · unfold parse_word
      dsimp only
      omega
    · cases dk
      · unfold parse_open_round
        rcases hr : st.round_start with _ | v <;> dsimp only <;> omega
      · unfold parse_open_square
        rcases hr : st.square_start with _ | v <;> dsimp only <;> omega
      · unfold parse_open_angle
        rcases hr : st.angle_start with _ | v <;> dsimp only <;> exact hangle hci
    · cases dk
      · unfold parse_close_round
        rcases hr : st.round_start with _ | v <;> dsimp only <;> omega
      · unfold parse_close_square
        rcases hr : st.square_start with _ | v <;> dsimp only <;> omega
      · unfold parse_close_angle
        rcases hr : st.angle_start with _ | v <;> dsimp only <;> omega

theorem unclosedMistakes_shape (st : Parser) (k : Nat) :
    ∀ m ∈ unclosedMistakes st, isWordMistakeAt m k = false := by
  intro m hm
  unfold unclosedMistakes at hm
  rcases List.mem_append.mp hm with hin | hin
  · rcases List.mem_append.mp hin with hin2 | hin2
    · rcases hr : st.round_start with _ | v <;> rw [hr] at hin2 <;> simp_all [isWordMistakeAt]
    · rcases hr : st.square_start with _ | v <;> rw [hr] at hin2 <;> simp_all [isWordMistakeAt]
  · rcases hr : st.angle_start with _ | v <;> rw [hr] at hin <;> simp_all [isWordMistakeAt]

theorem C10_runLoop (cfg : ParserConfig) (i : Nat) (t2 : Token) :
    ∀ (fuel : Nat) (st : Parser),
      (st.tokens.getD i dummyToken).kind = TokenKind.Open DelimKind.Angle →
      (st.tokens.getD (i + 1) dummyToken).kind = TokenKind.NonDelim →
      i + 1 < st.tokens.length →
      st.current ≠ i + 1 →
      ((∀ m ∈ st.mistakes, isWordMistakeAt m (i + 1) = false) →
        ∀ m ∈ (runLoop cfg fuel st).mistakes, isWordMistakeAt m (i + 1) = false) ∧
      ((∀ j, j < st.tokens.length → j ≠ i + 1 → st.tokens.getD j dummyToken ≠ t2) →
        Node.Token t2 ∉ st.nodes →
        Node.Token t2 ∉ (runLoop cfg fuel st).nodes) := by
  intro fuel
  induction fuel with
  | zero =>
    intro st _ _ _ _
    exact ⟨fun h => h, fun _ h => h⟩
  | succ n ih =>
    intro st hk hk2 hbound hcur
    unfold runLoop
    split
    · rename_i hguard
      obtain ⟨-, hT, -, -, -⟩ := stepFn_fields cfg st
      have hk' : ((stepFn cfg st).tokens.getD i dummyToken).kind =
          TokenKind.Open DelimKind.Angle := by rw [hT]; exact hk
      have hk2' : ((stepFn cfg st).tokens.getD (i + 1) dummyToken).kind =
          TokenKind.NonDelim := by rw [hT]; exact hk2
      have hbound' : i + 1 < (stepFn cfg st).tokens.length := by rw [hT]; exact hbound
      have hcur' : (stepFn cfg st).current ≠ i + 1 :=
        stepFn_avoids cfg st i hk hk2 hbound
      obtain ⟨ih1, ih2⟩ := ih (stepFn cfg st) hk' hk2' hbound' hcur'
      constructor
      · intro hclean
        apply ih1
        intro m hm
        rcases stepFn_mistakes_shape cfg st (i + 1) hcur m hm with hin | hfalse
        · exact hclean m hin
        · exact hfalse
      · intro hdist hnode
        apply ih2
        · intro j hj hji
          rw [hT]
          exact hdist j (by rw [← hT]; exact hj) hji
        · intro hcon
          rcases stepFn_token_nodes cfg st t2 hcon with hin | heq
          · exact hnode hin
          · exact hdist st.current hguard hcur heq.symm
    · exact ⟨fun h => h, fun _ h => h⟩

/-- C10: whenever an `Open(Angle)` token is immediately followed by a
`NonDelim` token, the following token is consumed by attribute-list
parsing and exempt from word classification: the final mistake list
contains no `BadToken` or `BadSubstr` attached to its index, and — when
its token value occurs nowhere else in the sequence — it is never
emitted as a `Node::Token` (even when its codes are invalid and no
`AttrList` is emitted either). -/
theorem angle_attr_token_not_word_checked :
    ∀ (cfg : ParserConfig) (seg : Tokenized) (i : Nat),
      (seg.tokens.getD i dummyToken).kind = TokenKind.Open DelimKind.Angle →
      (seg.tokens.getD (i + 1) dummyToken).kind = TokenKind.NonDelim →
      i + 1 < seg.tokens.length →
      (∀ m ∈ (Parser.parse cfg seg).mistakes, isWordMistakeAt m (i + 1) = false) ∧
      ((∀ j, j < seg.tokens.length → j ≠ i + 1 →
          seg.tokens.getD j dummyToken ≠ seg.tokens.getD (i + 1) dummyToken) →
        Node.Token (seg.tokens.getD (i + 1) dummyToken) ∉ (Parser.parse cfg seg).nodes) := by
  intro cfg seg i hk hk2 hbound
  have hcur0 : (initState seg).current ≠ i + 1 := by
    show (0 : Nat) ≠ i + 1
    omega
  obtain ⟨run1, run2⟩ := C10_runLoop cfg i (seg.tokens.getD (i + 1) dummyToken)
    (initState seg).tokens.length (initState seg) hk hk2 hbound hcur0
  constructor
  · intro m hm
    rcases List.mem_append.mp hm with hin | hin
    · exact run1 (by intro x hx; exact absurd hx (List.not_mem_nil x)) m hin
    · exact unclosedMistakes_shape _ (i + 1) m hin
  · intro hdist
    exact run2 hdist (List.not_mem_nil _)

theorem angle_attr_token_not_word_checked_witness :
    ((angleXSeg.tokens.getD 0 dummyToken).kind = TokenKind.Open DelimKind.Angle) ∧
    ((angleXSeg.tokens.getD 1 dummyToken).kind = TokenKind.NonDelim) ∧
    0 + 1 < angleXSeg.tokens.length ∧
    ((∀ m ∈ (Parser.parse smCfg angleXSeg).mistakes, isWordMistakeAt m (0 + 1) = false) ∧
      ((∀ j, j < angleXSeg.tokens.length → j ≠ 0 + 1 →
          angleXSeg.tokens.getD j dummyToken ≠ angleXSeg.tokens.getD (0 + 1) dummyToken) →
        Node.Token (angleXSeg.tokens.getD (0 + 1) dummyToken) ∉
          (Parser.parse smCfg angleXSeg).nodes)) :=
  ⟨by decide, by decide, by decide,
   angle_attr_token_not_word_checked smCfg angleXSeg 0 (by decide) (by decide) (by decide)⟩

end Quetzal
